import Mathlib

/-!
Shallow embedding of the file-store streaming/pagination engine
(src/file_store/src/file_store.rs) together with the key codec it relies on.

Conventions:
- byte strings (object keys, frame payloads, object bodies) are `List Nat`
  of byte values;
- UTC timestamps at second resolution are `Nat`;
- asynchronous streams are embedded as the finite list of items they yield
  when polled to completion; the look-ahead windows of the two fan-out modes
  are modelled explicitly (a fill/drain state machine for the ordered
  `try_buffered(2)` pipeline, and the same machine with a completion-choice
  oracle for `try_buffer_unordered(workers)`);
- fallible operations return `Except`.
-/

/-! ## Key codec

The key codec (the `FileInfo` module) is not among the provided source
files; only its call sites in file_store.rs are.  It is therefore modelled
from the spec (see the doc comments below). -/

/-- Timestamps are rendered with this fixed decimal width, so that string
order of keys agrees with chronological order. -/
def TSWIDTH : Nat := 10

/-- Modelled from the spec: the file-type tag (the part of the key before the
dot) is a nonempty word of lowercase letters and underscores; in particular it
never contains the dot separator byte 46. -/
def isFtChar (c : Nat) : Bool :=
  (97 ≤ c && c ≤ 122) || c == 95

/-- Modelled from the spec: validity of a file-type tag. -/
def fileTypeOk (p : List Nat) : Bool :=
  !p.isEmpty && p.all isFtChar

/-- Decimal digit byte test. -/
def isDigitByte (c : Nat) : Bool :=
  48 ≤ c && c ≤ 57

/-- Fixed-width most-significant-first decimal digits of a number. -/
def digitsFixed : Nat → Nat → List Nat
  | 0, _ => []
  | w + 1, n => n / 10 ^ w :: digitsFixed w (n % 10 ^ w)

/-- Value of a most-significant-first digit list, accumulator style. -/
def digitsVal (acc : Nat) : List Nat → Nat
  | [] => acc
  | d :: ds => digitsVal (acc * 10 + d) ds

/-- A descriptor: file-type tag and timestamp decoded from an object key. -/
structure FileInfo where
  fileType : List Nat
  timestamp : Nat
  deriving DecidableEq, Repr

/-- Modelled from the spec: `encode(prefix, timestamp) -> key` renders the key
as the file-type tag, the dot separator, and the timestamp as fixed-width
decimal digits. -/
def FileInfo.encodeKey (p : List Nat) (t : Nat) : List Nat :=
  p ++ 46 :: (digitsFixed TSWIDTH t).map (fun d => d + 48)

/-- Split a key at its first dot byte, if any. -/
def splitDot : List Nat → Option (List Nat × List Nat)
  | [] => none
  | c :: rest =>
    if c == 46 then some ([], rest)
    else (splitDot rest).map (fun pr => (c :: pr.1, pr.2))

/-- Modelled from the spec: the grammar check used by listing — the key is a
valid file-type tag, a dot, and a fixed-width run of decimal digits. -/
def FileInfo.matches (k : List Nat) : Bool :=
  match splitDot k with
  | none => false
  | some (p, ts) =>
    fileTypeOk p && (ts.length == TSWIDTH) && ts.all isDigitByte

/-- Modelled from the spec: the full decode performed when converting a listed
object into a descriptor; returns none for any key not matching the
grammar. -/
def FileInfo.tryFrom (k : List Nat) : Option FileInfo :=
  match splitDot k with
  | none => none
  | some (p, ts) =>
    if fileTypeOk p && (ts.length == TSWIDTH) && ts.all isDigitByte then
      some { fileType := p, timestamp := digitsVal 0 (ts.map (fun d => d - 48)) }
    else
      none

/-- Strict lexicographic order on byte strings, as the backend orders keys. -/
def keyLt : List Nat → List Nat → Bool
  | [], [] => false
  | [], _ :: _ => true
  | _ :: _, [] => false
  | a :: as, b :: bs => a < b || (a == b && keyLt as bs)

/-! ## Pagination engine (FileStore::list) -/

/-- One listed object as the backend reports it: the key field is optional on
the wire. -/
structure ListedObj where
  key : Option (List Nat)
  deriving DecidableEq, Repr

/-- One page of listing results: an optional entry list and an optional
continuation token (tokens are modelled as page indices). -/
structure Page where
  contents : Option (List ListedObj)
  nextToken : Option Nat
  deriving DecidableEq, Repr

/-- Backend failure for a page request or an object fetch. -/
structure S3Err where
  code : Nat
  deriving DecidableEq, Repr

/-- Continuation token carried out of a response: present only on a
successful response that has one (`as_ref().ok().and_then(next_continuation_token)`). -/
def respToken (r : Except S3Err Page) : Option Nat :=
  match r with
  | Except.ok p => p.nextToken
  | Except.error _ => none

/-- The listing unfold of FileStore::list: state is (first_time, token); one
request is sent per step while first_time or a token is present, and the trace
records both the request tokens used and the responses received.  Fuel bounds
the number of polls; any fuel of at least the page count is enough. -/
def listUnfoldTrace (backend : Option Nat → Except S3Err Page) :
    Nat → Bool × Option Nat → List (Option Nat) × List (Except S3Err Page)
  | 0, _ => ([], [])
  | fuel + 1, (firstTime, next) =>
    if firstTime || next.isSome then
      let resp := backend next
      let rest := listUnfoldTrace backend fuel (false, respToken resp)
      (next :: rest.1, resp :: rest.2)
    else
      ([], [])

/-- The per-object step inside the page filter_map: keys failing the grammar
check are skipped; accepted keys are converted unconditionally
(`FileInfo::try_from(&obj).unwrap()`, modelled with a default that theorem
about the grammar check shows unreachable). -/
def objEntry (obj : ListedObj) : Option FileInfo :=
  if FileInfo.matches (obj.key.getD []) then
    some ((FileInfo.tryFrom (obj.key.getD [])).getD { fileType := [], timestamp := 0 })
  else
    none

/-- Exclusive lower time bound, applied only when supplied
(`after.map_or(true, |v| info.timestamp > v)`). -/
def afterPred (after : Option Nat) (info : FileInfo) : Bool :=
  match after with
  | none => true
  | some v => v < info.timestamp

/-- Inclusive upper time bound, applied only when supplied
(`before.map_or(true, |v| info.timestamp <= v)`). -/
def beforePred (before : Option Nat) (info : FileInfo) : Bool :=
  match before with
  | none => true
  | some v => info.timestamp ≤ v

/-- The per-page body of the flat_map in FileStore::list: a missing entry
list is replaced by the empty list, keys are filtered through the grammar
check and converted, then the two time-bound filters run. -/
def processPage (after before : Option Nat) (p : Page) : List (Except S3Err FileInfo) :=
  ((((p.contents.getD []).filterMap objEntry).filter (afterPred after)).filter
    (beforePred before)).map Except.ok

/-- Expansion of one response by the flat_map: a page expands to its filtered
entries, an error to the single error item. -/
def pageItems (after before : Option Nat) (r : Except S3Err Page) :
    List (Except S3Err FileInfo) :=
  match r with
  | Except.ok p => processPage after before p
  | Except.error e => [Except.error e]

/-- Items yielded by FileStore::list: the response trace flat-mapped through
the per-page filter. -/
def listItemsModel (after before : Option Nat) (backend : Option Nat → Except S3Err Page)
    (fuel : Nat) : List (Except S3Err FileInfo) :=
  ((listUnfoldTrace backend fuel (true, none)).2).flatMap (pageItems after before)

/-- Page i of a dataset split into the given page contents, linked by
index-valued continuation tokens. -/
def pageAt (ps : List (List ListedObj)) (i : Nat) : Page :=
  { contents := ps[i]?
    nextToken := if i + 1 < ps.length then some (i + 1) else none }

/-- A backend holding the given dataset split: every request succeeds and the
token selects the page (the first request, with no token, gets page 0). -/
def mkBackend (ps : List (List ListedObj)) : Option Nat → Except S3Err Page :=
  fun tok => Except.ok (pageAt ps (tok.getD 0))

/-! ## Fan-out fetcher (FileStore::source / source_unordered)

The fetch futures are modelled as resolving to their results as soon as they
are polled; `fill` is the window-filling loop of try_buffered /
try_buffer_unordered (an error pulled from the input stream is propagated
immediately), and the drivers below alternate filling with draining one
completed fetch. -/

/-- Result of the window-filling loop: either the window was filled (input
exhausted, input blocked on an error already emitted, or window full), or an
input error must be emitted now. -/
inductive FillRes (E α F : Type) where
  | filled (pending : List (Except E α)) (window : List (Except E (List F)))
  | errored (e : E) (pending : List (Except E α)) (window : List (Except E (List F)))

/-- Window-filling loop: pull from the input while the window holds fewer
than n fetches; a pulled descriptor starts its fetch, a pulled error is
surfaced immediately. -/
def fill {E α F : Type} (n : Nat) (fetch : α → Except E (List F)) :
    List (Except E α) → List (Except E (List F)) → FillRes E α F
  | [], window => FillRes.filled [] window
  | Except.error e :: ps, window =>
    if window.length < n then FillRes.errored e ps window
    else FillRes.filled (Except.error e :: ps) window
  | Except.ok a :: ps, window =>
    if window.length < n then fill n fetch ps (window ++ [fetch a])
    else FillRes.filled (Except.ok a :: ps) window

/-- Driver of the ordered mode (try_buffered n): fill the window, then yield
the front fetch result.  Fuel of at least pending.length + window.length is
enough to drain everything. -/
def runBuffered {E α F : Type} (n : Nat) (fetch : α → Except E (List F)) :
    Nat → List (Except E α) → List (Except E (List F)) → List (Except E (List F))
  | 0, _, _ => []
  | fuel + 1, pending, window =>
    match fill n fetch pending window with
    | FillRes.errored e ps w => Except.error e :: runBuffered n fetch fuel ps w
    | FillRes.filled ps w =>
      match w with
      | [] => []
      | r :: rs => r :: runBuffered n fetch fuel ps rs

/-- Driver of the unordered mode (try_buffer_unordered n): fill the window,
then yield whichever in-flight fetch the completion oracle picks. -/
def runBufUnordered {E α F : Type} (n : Nat) (fetch : α → Except E (List F)) :
    Nat → List Nat → List (Except E α) → List (Except E (List F)) →
    List (Except E (List F))
  | 0, _, _, _ => []
  | fuel + 1, cs, pending, window =>
    match fill n fetch pending window with
    | FillRes.errored e ps w => Except.error e :: runBufUnordered n fetch fuel cs ps w
    | FillRes.filled ps w =>
      match w with
      | [] => []
      | _ :: _ =>
        let i := cs.headD 0 % w.length
        w.getD i (Except.ok []) :: runBufUnordered n fetch fuel cs.tail ps (w.eraseIdx i)

/-- The flat_map body applied to each fetch outcome: a fetched body expands to
its frames, a fetch error to the single error item. -/
def expandResult {E F : Type} (r : Except E (List F)) : List (Except E F) :=
  match r with
  | Except.ok fs => fs.map Except.ok
  | Except.error e => [Except.error e]

/-- Flattening of per-descriptor outcomes into the combined sequence. -/
def flattenResults {E F : Type} (l : List (Except E (List F))) : List (Except E F) :=
  l.flatMap expandResult

/-- FileStore::source: map each descriptor to its fetch, buffer 2 in order,
flatten each body into frames. -/
def sourceModel {E α F : Type} (fetch : α → Except E (List F))
    (infos : List (Except E α)) : List (Except E F) :=
  flattenResults (runBuffered 2 fetch infos.length infos [])

/-- FileStore::source_unordered with the given worker count and completion
oracle. -/
def sourceUnorderedModel {E α F : Type} (workers : Nat) (fetch : α → Except E (List F))
    (cs : List Nat) (infos : List (Except E α)) : List (Except E F) :=
  flattenResults (runBufUnordered workers fetch infos.length cs infos [])

/-- The per-input outcome of the fan-out: a descriptor's fetch result, or the
input error itself. -/
def resultOf {E α F : Type} (fetch : α → Except E (List F)) (x : Except E α) :
    Except E (List F) :=
  match x with
  | Except.ok a => fetch a
  | Except.error e => Except.error e

/-! ## Codec pipeline (stream_source)

stream_source wraps the body in a gzip decoder and a length-delimited
FramedRead.  The decompression stage is an external library and is treated as
transparent here: the model decodes the (decompressed) byte sequence that was
actually received with the default LengthDelimitedCodec — a 4-byte big-endian
length field, a maximum frame length of 8 MiB, and an error when bytes remain
at end of input. -/

/-- Codec failure while framing a body. -/
inductive CodecErr where
  | truncated
  | oversized
  deriving DecidableEq, Repr

/-- Default maximum frame length of LengthDelimitedCodec (8 MiB). -/
def maxFrameLen : Nat := 8 * 1024 * 1024

/-- Big-endian 4-byte encoding of a length. -/
def be32enc (n : Nat) : List Nat :=
  [n / 16777216 % 256, n / 65536 % 256, n / 256 % 256, n % 256]

/-- Value of a big-endian 4-byte length field. -/
def be32val (l : List Nat) : Nat :=
  l.foldl (fun acc b => acc * 256 + b) 0

/-- Wire encoding of one frame: length field then payload. -/
def encodeFrame (f : List Nat) : List Nat :=
  be32enc f.length ++ f

/-- Wire encoding of a frame sequence. -/
def encodeFrames (fs : List (List Nat)) : List Nat :=
  fs.flatMap encodeFrame

/-- Framing loop on the received bytes: a frame is yielded only once fully
present; a short length field or a short payload at end of input is the
terminal truncation error.  Fuel of at least the byte count is enough. -/
def decodeFramesFuel : Nat → List Nat → List (Except CodecErr (List Nat))
  | 0, _ => []
  | fuel + 1, bytes =>
    match bytes with
    | [] => []
    | _ :: _ =>
      if bytes.length < 4 then [Except.error CodecErr.truncated]
      else
        let n := be32val (bytes.take 4)
        if maxFrameLen < n then [Except.error CodecErr.oversized]
        else if bytes.length < 4 + n then [Except.error CodecErr.truncated]
        else Except.ok ((bytes.drop 4).take n) :: decodeFramesFuel fuel (bytes.drop (4 + n))

/-- Frames (and the terminal error, if any) recovered from a received byte
sequence by stream_source. -/
def decodeFrames (bytes : List Nat) : List (Except CodecErr (List Nat)) :=
  decodeFramesFuel bytes.length bytes

/-! ## Store facade: put -/

/-- Store-level error kinds. -/
inductive StoreErr where
  | notFound (path : List (List Nat))
  | s3 (e : S3Err)
  deriving DecidableEq, Repr

/-- One upload request issued to the backend: key and body. -/
structure PutReq where
  key : List Nat
  body : List Nat
  deriving DecidableEq, Repr

/-- FileStore::put: opening the local path (modelled by the fs map) fails with
NotFound and no request; an opened file is uploaded once under the path's base
name (the final component; `file_name().unwrap()` modelled with a default the
theorem's hypothesis rules out).  Returns the result together with the list of
upload requests issued. -/
def putModel (fs : List (List Nat) → Option (List Nat))
    (upload : List Nat → List Nat → Except StoreErr Unit)
    (path : List (List Nat)) : Except StoreErr Unit × List PutReq :=
  match fs path with
  | none => (Except.error (StoreErr.notFound path), [])
  | some body =>
    let key := path.getLast?.getD []
    (upload key body, [{ key := key, body := body }])

/-! ## Auxiliary definitions used to state the theorems -/

/-- Frame list carried by a successful fetch outcome (empty for an error). -/
def okFrames {E F : Type} (r : Except E (List F)) : List F :=
  match r with
  | Except.ok fs => fs
  | Except.error _ => []

/-- Window component of a fill result. -/
def fillWindow {E α F : Type} (r : FillRes E α F) : List (Except E (List F)) :=
  match r with
  | FillRes.filled _ w => w
  | FillRes.errored _ _ w => w

/-- The body of the per-page filter applied directly to an entry list; the
page filter of FileStore::list is this applied to the page's (defaulted)
contents. -/
def contentItems (after before : Option Nat) (c : List ListedObj) :
    List (Except S3Err FileInfo) :=
  (((c.filterMap objEntry).filter (afterPred after)).filter (beforePred before)).map
    Except.ok

/-! ## Key codec lemmas -/

theorem isFtChar_ne_dot {c : Nat} (h : isFtChar c = true) : c ≠ 46 := by
  simp only [isFtChar, Bool.or_eq_true, Bool.and_eq_true, decide_eq_true_eq, beq_iff_eq] at h
  omega

theorem splitDot_append (rest : List Nat) :
    ∀ p : List Nat, (∀ c ∈ p, c ≠ 46) → splitDot (p ++ 46 :: rest) = some (p, rest) := by
  intro p
  induction p with
  | nil => intro _; simp [splitDot]
  | cons c p ih =>
    intro h
    have hc : c ≠ 46 := h c (List.mem_cons_self c p)
    have ih' := ih (fun d hd => h d (List.mem_cons_of_mem c hd))
    simp only [List.cons_append, splitDot, beq_iff_eq, if_neg hc]
    rw [show splitDot (p.append (46 :: rest)) = some (p, rest) from ih', Option.map_some']

theorem digitsFixed_length (w : Nat) : ∀ n, (digitsFixed w n).length = w := by
  induction w with
  | zero => intro n; rfl
  | succ w ih => intro n; simp [digitsFixed, ih]

theorem digitsFixed_lt_ten (w : Nat) :
    ∀ n, n < 10 ^ w → ∀ d ∈ digitsFixed w n, d < 10 := by
  induction w with
  | zero => intro n _ d hd; simp [digitsFixed] at hd
  | succ w ih =>
    intro n hn d hd
    simp only [digitsFixed, List.mem_cons] at hd
    rcases hd with hd | hd
    · subst hd
      have : n < 10 * 10 ^ w := by rw [pow_succ] at hn; omega
      exact Nat.div_lt_of_lt_mul (by omega)
    · exact ih (n % 10 ^ w) (Nat.mod_lt n (Nat.pos_pow_of_pos w (by norm_num))) d hd

theorem digitsVal_digitsFixed (w : Nat) :
    ∀ acc n, n < 10 ^ w → digitsVal acc (digitsFixed w n) = acc * 10 ^ w + n := by
  induction w with
  | zero => intro acc n hn; interval_cases n; simp [digitsFixed, digitsVal]
  | succ w ih =>
    intro acc n hn
    have hmod : n % 10 ^ w < 10 ^ w := Nat.mod_lt n (Nat.pos_pow_of_pos w (by norm_num))
    have hdm := Nat.div_add_mod n (10 ^ w)
    simp only [digitsFixed, digitsVal]
    rw [ih (acc * 10 + n / 10 ^ w) (n % 10 ^ w) hmod]
    have expand : (acc * 10 + n / 10 ^ w) * 10 ^ w + n % 10 ^ w =
        acc * (10 ^ w * 10) + (10 ^ w * (n / 10 ^ w) + n % 10 ^ w) := by ring
    rw [expand, hdm, ← pow_succ]

theorem matches_eq_tryFrom_isSome (k : List Nat) :
    FileInfo.matches k = (FileInfo.tryFrom k).isSome := by
  unfold FileInfo.matches FileInfo.tryFrom
  cases hsd : splitDot k with
  | none => rfl
  | some pr =>
    obtain ⟨p, ts⟩ := pr
    by_cases hcond : (fileTypeOk p && (ts.length == TSWIDTH) && ts.all isDigitByte) = true
    · simp [hcond]
    · simp only [Bool.not_eq_true] at hcond
      simp [hcond]

theorem tryFrom_encodeKey (p : List Nat) (t : Nat) (hp : fileTypeOk p = true)
    (ht : t < 10 ^ TSWIDTH) :
    FileInfo.tryFrom (FileInfo.encodeKey p t) = some { fileType := p, timestamp := t } := by
  have hchars : ∀ c ∈ p, c ≠ 46 := by
    intro c hc
    have := (List.all_eq_true.mp ((Bool.and_eq_true _ _).mp hp).2) c hc
    exact isFtChar_ne_dot this
  have hsd := splitDot_append ((digitsFixed TSWIDTH t).map (fun d => d + 48)) p hchars
  have hlen : ((digitsFixed TSWIDTH t).map (fun d => d + 48)).length = TSWIDTH := by
    rw [List.length_map, digitsFixed_length]
  have hdig : ((digitsFixed TSWIDTH t).map (fun d => d + 48)).all isDigitByte = true := by
    rw [List.all_eq_true]
    intro b hb
    rw [List.mem_map] at hb
    obtain ⟨d, hd, rfl⟩ := hb
    have := digitsFixed_lt_ten TSWIDTH t ht d hd
    simp only [isDigitByte, Bool.and_eq_true, decide_eq_true_eq]
    omega
  unfold FileInfo.tryFrom FileInfo.encodeKey
  rw [hsd]
  simp only [hp, hlen, hdig, beq_self_eq_true, Bool.and_self, Bool.and_true, Bool.true_and,
    if_pos]
  have hmapmap : ((digitsFixed TSWIDTH t).map (fun d => d + 48)).map (fun d => d - 48) =
      digitsFixed TSWIDTH t := by
    rw [List.map_map]
    have : ((fun d => d - 48) ∘ fun d => d + 48) = (id : Nat → Nat) := by
      funext d; simp
    rw [this, List.map_id]
  rw [hmapmap, digitsVal_digitsFixed TSWIDTH 0 t ht]
  simp

theorem keyLt_append (x : List Nat) : ∀ a b, keyLt (x ++ a) (x ++ b) = keyLt a b := by
  induction x with
  | nil => intro a b; rfl
  | cons c x ih => intro a b; simp [keyLt, ih]

theorem lt_iff_div_mod (P m n : Nat) (hP : 0 < P) :
    m < n ↔ m / P < n / P ∨ (m / P = n / P ∧ m % P < n % P) := by
  constructor
  · intro h
    rcases Nat.lt_trichotomy (m / P) (n / P) with hd | hd | hd
    · exact Or.inl hd
    · refine Or.inr ⟨hd, ?_⟩
      have hm := Nat.div_add_mod m P
      have hn := Nat.div_add_mod n P
      rw [hd] at hm
      have hgen : ∀ A : Nat, A + m % P = m → A + n % P = n → m % P < n % P := by
        intro A h1 h2; omega
      exact hgen (P * (n / P)) hm hn
    · exfalso
      have := Nat.div_le_div_right (c := P) (Nat.le_of_lt h)
      omega
  · intro h
    rcases h with hd | ⟨hd, hm⟩
    · have h1 : m < P * (m / P) + P := by
        have := Nat.div_add_mod m P
        have := Nat.mod_lt m hP
        omega
      have h2 : P * (m / P) + P = P * (m / P + 1) := by ring
      have h3 : P * (m / P + 1) ≤ P * (n / P) := Nat.mul_le_mul_left P (by omega)
      have h4 : P * (n / P) ≤ n := by
        have := Nat.div_add_mod n P
        omega
      omega
    · have hmm := Nat.div_add_mod m P
      have hnn := Nat.div_add_mod n P
      rw [hd] at hmm
      have hgen : ∀ A : Nat, A + m % P = m → A + n % P = n → m < n := by
        intro A h1 h2; omega
      exact hgen (P * (n / P)) hmm hnn

theorem keyLt_digits (w : Nat) : ∀ m n, m < 10 ^ w → n < 10 ^ w →
    (keyLt ((digitsFixed w m).map (fun d => d + 48))
      ((digitsFixed w n).map (fun d => d + 48)) = true ↔ m < n) := by
  induction w with
  | zero =>
    intro m n hm hn
    interval_cases m
    interval_cases n
    simp [digitsFixed, keyLt]
  | succ w ih =>
    intro m n hm hn
    have hpos : 0 < 10 ^ w := Nat.pos_pow_of_pos w (by norm_num)
    have hmm : m % 10 ^ w < 10 ^ w := Nat.mod_lt m hpos
    have hnm : n % 10 ^ w < 10 ^ w := Nat.mod_lt n hpos
    simp only [digitsFixed, List.map_cons, keyLt, Bool.or_eq_true, Bool.and_eq_true,
      decide_eq_true_eq, beq_iff_eq]
    rw [ih (m % 10 ^ w) (n % 10 ^ w) hmm hnm]
    rw [lt_iff_div_mod (10 ^ w) m n hpos]
    constructor
    · rintro (h | ⟨h1, h2⟩)
      · exact Or.inl (by omega)
      · exact Or.inr ⟨by omega, h2⟩
    · rintro (h | ⟨h1, h2⟩)
      · exact Or.inl (by omega)
      · exact Or.inr ⟨by omega, h2⟩

/-- C8: decoding the key produced by encoding (prefix, t) recovers exactly
(prefix, t), and for a fixed prefix the lexicographic order of encoded keys
coincides with the chronological order of the timestamps.  The prefix ranges
over valid file-type tags and the timestamp over the values representable in
the fixed-width field, as the modelled key grammar prescribes. -/
theorem claim_c8 (p : List Nat) (t₁ t₂ : Nat) (hp : fileTypeOk p = true)
    (h1 : t₁ < 10 ^ TSWIDTH) (h2 : t₂ < 10 ^ TSWIDTH) :
    FileInfo.tryFrom (FileInfo.encodeKey p t₁) = some { fileType := p, timestamp := t₁ } ∧
    (keyLt (FileInfo.encodeKey p t₁) (FileInfo.encodeKey p t₂) = true ↔ t₁ < t₂) := by
  refine ⟨tryFrom_encodeKey p t₁ hp h1, ?_⟩
  have hsplit : ∀ t : Nat, FileInfo.encodeKey p t =
      (p ++ [46]) ++ (digitsFixed TSWIDTH t).map (fun d => d + 48) := by
    intro t; simp [FileInfo.encodeKey]
  rw [hsplit t₁, hsplit t₂, keyLt_append]
  exact keyLt_digits TSWIDTH t₁ t₂ h1 h2

theorem claim_c8_witness :
    fileTypeOk [97] = true ∧ 5 < 10 ^ TSWIDTH ∧ 7 < 10 ^ TSWIDTH ∧
    (FileInfo.tryFrom (FileInfo.encodeKey [97] 5) =
        some { fileType := [97], timestamp := 5 } ∧
      (keyLt (FileInfo.encodeKey [97] 5) (FileInfo.encodeKey [97] 7) = true ↔ 5 < 7)) :=
  ⟨by decide, by decide, by decide, claim_c8 [97] 5 7 (by decide) (by decide) (by decide)⟩

/-- C4: a key failing the grammar check is silently skipped by the page
filter (no descriptor, no error), and the unconditional conversion performed
after the grammar check succeeds for every key the grammar check accepts. -/
theorem claim_c4 :
    (∀ obj : ListedObj, FileInfo.matches (obj.key.getD []) = false → objEntry obj = none) ∧
    (∀ k : List Nat, FileInfo.matches k = true → (FileInfo.tryFrom k).isSome = true) := by
  constructor
  · intro obj h
    simp [objEntry, h]
  · intro k h
    rw [← matches_eq_tryFrom_isSome]
    exact h

theorem claim_c4_witness :
    FileInfo.matches ((ListedObj.mk (some [120])).key.getD []) = false ∧
    objEntry (ListedObj.mk (some [120])) = none ∧
    FileInfo.matches (FileInfo.encodeKey [97] 5) = true ∧
    (FileInfo.tryFrom (FileInfo.encodeKey [97] 5)).isSome = true :=
  ⟨by decide, claim_c4.1 (ListedObj.mk (some [120])) (by decide), by decide,
    claim_c4.2 (FileInfo.encodeKey [97] 5) (by decide)⟩

/-- C10: a successful page with an absent entry list contributes nothing (and
no error), an entry with an absent key is treated as a non-matching key and
skipped, and the continuation decision depends only on the token of a
successful response. -/
theorem claim_c10 :
    (∀ after before tok,
      processPage after before { contents := none, nextToken := tok } = []) ∧
    (∀ after before objs tok,
      processPage after before { contents := some ({ key := none } :: objs), nextToken := tok } =
        processPage after before { contents := some objs, nextToken := tok }) ∧
    (∀ p : Page, respToken (Except.ok p) = p.nextToken) := by
  refine ⟨?_, ?_, ?_⟩
  · intro after before tok
    simp [processPage]
  · intro after before objs tok
    simp [processPage, objEntry, FileInfo.matches, splitDot]
  · intro p
    rfl

/-- C9: put on an unopenable local path returns NotFound and issues no
backend request; put on an openable path uploads the body once under the
path's base name. -/
theorem claim_c9 :
    (∀ fs upload path, fs path = none →
      putModel fs upload path = (Except.error (StoreErr.notFound path), [])) ∧
    (∀ fs upload path body name, fs path = some body → path.getLast? = some name →
      putModel fs upload path = (upload name body, [{ key := name, body := body }])) := by
  constructor
  · intro fs upload path h
    simp [putModel, h]
  · intro fs upload path body name h hn
    simp [putModel, h, hn]

theorem claim_c9_witness :
    ((fun _ : List (List Nat) => (none : Option (List Nat))) [[97]] = none ∧
      putModel (fun _ => none) (fun _ _ => Except.ok ()) [[97]] =
        (Except.error (StoreErr.notFound [[97]]), [])) ∧
    ((fun _ : List (List Nat) => some [1]) [[97]] = some [1] ∧
      ([[97]] : List (List Nat)).getLast? = some [97] ∧
      putModel (fun _ => some [1]) (fun _ _ => Except.ok ()) [[97]] =
        (Except.ok (), [{ key := [97], body := [1] }])) :=
  ⟨⟨rfl, claim_c9.1 (fun _ => none) (fun _ _ => Except.ok ()) [[97]] rfl⟩,
    ⟨rfl, rfl, claim_c9.2 (fun _ => some [1]) (fun _ _ => Except.ok ()) [[97]] [1] [97] rfl rfl⟩⟩

/-- C6: the listing state machine issues the first request with no token,
issues a follow-up request exactly when the prior response carried a token
(and with exactly that token), stops when no token is present, and a failed
response carries no token — so it is emitted as the single final item and no
further request is issued. -/
theorem claim_c6 (backend : Option Nat → Except S3Err Page) (fuel : Nat) :
    (listUnfoldTrace backend (fuel + 1) (true, none) =
      (none :: (listUnfoldTrace backend fuel (false, respToken (backend none))).1,
        backend none :: (listUnfoldTrace backend fuel (false, respToken (backend none))).2)) ∧
    (∀ t : Nat, listUnfoldTrace backend (fuel + 1) (false, some t) =
      (some t :: (listUnfoldTrace backend fuel (false, respToken (backend (some t)))).1,
        backend (some t) ::
          (listUnfoldTrace backend fuel (false, respToken (backend (some t)))).2)) ∧
    listUnfoldTrace backend fuel (false, none) = ([], []) ∧
    (∀ e : S3Err, respToken (Except.error e) = none) := by
  refine ⟨?_, ?_, ?_, ?_⟩
  · simp [listUnfoldTrace]
  · intro t
    simp [listUnfoldTrace]
  · cases fuel <;> simp [listUnfoldTrace]
  · intro e
    rfl

/-! ## Pagination lemmas and C1 -/

theorem listUnfoldTrace_terminal (backend : Option Nat → Except S3Err Page) (fuel : Nat) :
    listUnfoldTrace backend fuel (false, none) = ([], []) := by
  cases fuel <;> simp [listUnfoldTrace]

theorem objEntry_eq_tryFrom (obj : ListedObj) :
    objEntry obj = FileInfo.tryFrom (obj.key.getD []) := by
  unfold objEntry
  by_cases h : FileInfo.matches (obj.key.getD []) = true
  · rw [if_pos h]
    have hs : (FileInfo.tryFrom (obj.key.getD [])).isSome = true := by
      rw [← matches_eq_tryFrom_isSome]
      exact h
    cases htf : FileInfo.tryFrom (obj.key.getD []) with
    | none => rw [htf] at hs; simp at hs
    | some v => simp [htf]
  · rw [if_neg h]
    have hs : (FileInfo.tryFrom (obj.key.getD [])).isSome = false := by
      rw [← matches_eq_tryFrom_isSome]
      simpa using h
    cases htf : FileInfo.tryFrom (obj.key.getD []) with
    | none => rfl
    | some v => rw [htf] at hs; simp at hs

theorem processPage_eq_contentItems (a b : Option Nat) (p : Page) :
    processPage a b p = contentItems a b (p.contents.getD []) := rfl

theorem trace_first_eq (ps : List (List ListedObj)) (fuel : Nat) :
    (listUnfoldTrace (mkBackend ps) (fuel + 1) (true, none)).2 =
      (listUnfoldTrace (mkBackend ps) (fuel + 1) (false, some 0)).2 := by
  simp [listUnfoldTrace, mkBackend]

theorem listFrom (ps : List (List ListedObj)) (a b : Option Nat) :
    ∀ fuel j, j < ps.length → ps.length ≤ j + fuel →
      ((listUnfoldTrace (mkBackend ps) fuel (false, some j)).2).flatMap (pageItems a b) =
        (ps.drop j).flatMap (contentItems a b) := by
  intro fuel
  induction fuel with
  | zero => intro j hj hle; omega
  | succ fuel ih =>
    intro j hj hle
    have hresp : mkBackend ps (some j) = Except.ok (pageAt ps j) := rfl
    have hdropj : ps.drop j = ps[j] :: ps.drop (j + 1) := List.drop_eq_getElem_cons hj
    have hcontents : (pageAt ps j).contents = some ps[j] := by
      simp [pageAt, List.getElem?_eq_getElem hj]
    have hpage : pageItems a b (Except.ok (pageAt ps j)) = contentItems a b ps[j] := by
      rw [pageItems, processPage_eq_contentItems, hcontents]
      rfl
    simp only [listUnfoldTrace, Option.isSome_some, Bool.or_true, if_pos, hresp]
    by_cases hnext : j + 1 < ps.length
    · have htok : respToken (Except.ok (pageAt ps j)) = some (j + 1) := by
        simp [respToken, pageAt, hnext]
      rw [htok]
      simp only [List.flatMap_cons]
      rw [ih (j + 1) hnext (by omega), hdropj, List.flatMap_cons, hpage]
    · have htok : respToken (Except.ok (pageAt ps j)) = none := by
        simp [respToken, pageAt, hnext]
      rw [htok, listUnfoldTrace_terminal]
      have hdrop1 : ps.drop (j + 1) = [] := List.drop_eq_nil_of_le (by omega)
      rw [hdropj, hdrop1]
      simp [hpage]

theorem contentItems_flatten (a b : Option Nat) :
    ∀ ps : List (List ListedObj),
      ps.flatMap (contentItems a b) = contentItems a b ps.flatten := by
  intro ps
  induction ps with
  | nil => rfl
  | cons c ps ih =>
    rw [List.flatMap_cons, ih]
    simp [contentItems, List.filterMap_append, List.filter_append, List.map_append]

/-- C1: over any dataset split into backend pages, list yields exactly the
decodable entries whose timestamp lies in the half-open window (lower bound
exclusive, upper bound inclusive, each applied only when supplied), in
within-page order and page order, with no reordering or deduplication: the
output equals the filtered concatenation of the pages. -/
theorem claim_c1 (ps : List (List ListedObj)) (after before : Option Nat) :
    listItemsModel after before (mkBackend ps) (ps.length + 1) =
      ((ps.flatten.filterMap (fun obj => FileInfo.tryFrom (obj.key.getD []))).filter
        (fun info => afterPred after info && beforePred before info)).map Except.ok := by
  have hobj : objEntry = fun obj : ListedObj => FileInfo.tryFrom (obj.key.getD []) :=
    funext objEntry_eq_tryFrom
  have hrhs : ∀ c : List ListedObj, contentItems after before c =
      ((c.filterMap (fun obj => FileInfo.tryFrom (obj.key.getD []))).filter
        (fun info => afterPred after info && beforePred before info)).map Except.ok := by
    intro c
    simp only [contentItems]
    rw [hobj, List.filter_filter]
    congr 1
    apply List.filter_congr
    intro x _
    exact Bool.and_comm _ _
  rw [← hrhs]
  cases ps with
  | nil =>
    simp [listItemsModel, listUnfoldTrace, mkBackend, pageAt, pageItems, processPage,
      contentItems, listUnfoldTrace_terminal]
  | cons c ps' =>
    have hlen : 0 < (c :: ps').length := by simp
    unfold listItemsModel
    rw [trace_first_eq]
    have := listFrom (c :: ps') after before ((c :: ps').length + 1) 0 hlen (by omega)
    rw [this, List.drop_zero, contentItems_flatten]


/-! ## Fan-out lemmas, C2 and C3 -/

theorem runBuffered_step_err {E α F : Type} (n : Nat) (fetch : α → Except E (List F))
    (fuel : Nat) (p : List (Except E α)) (q w : List (Except E (List F)))
    (e : E) (ps : List (Except E α))
    (h : fill n fetch p q = FillRes.errored e ps w) :
    runBuffered n fetch (fuel + 1) p q = Except.error e :: runBuffered n fetch fuel ps w := by
  simp [runBuffered, h]

theorem runBuffered_step_nil {E α F : Type} (n : Nat) (fetch : α → Except E (List F))
    (fuel : Nat) (p : List (Except E α)) (q : List (Except E (List F)))
    (ps : List (Except E α))
    (h : fill n fetch p q = FillRes.filled ps []) :
    runBuffered n fetch (fuel + 1) p q = [] := by
  simp [runBuffered, h]

theorem runBuffered_step_cons {E α F : Type} (n : Nat) (fetch : α → Except E (List F))
    (fuel : Nat) (p : List (Except E α)) (q : List (Except E (List F)))
    (ps : List (Except E α)) (r : Except E (List F)) (rs : List (Except E (List F)))
    (h : fill n fetch p q = FillRes.filled ps (r :: rs)) :
    runBuffered n fetch (fuel + 1) p q = r :: runBuffered n fetch fuel ps rs := by
  simp [runBuffered, h]

theorem runBufUnordered_step_err {E α F : Type} (n : Nat) (fetch : α → Except E (List F))
    (fuel : Nat) (cs : List Nat) (p : List (Except E α)) (q w : List (Except E (List F)))
    (e : E) (ps : List (Except E α))
    (h : fill n fetch p q = FillRes.errored e ps w) :
    runBufUnordered n fetch (fuel + 1) cs p q =
      Except.error e :: runBufUnordered n fetch fuel cs ps w := by
  simp [runBufUnordered, h]

theorem runBufUnordered_step_nil {E α F : Type} (n : Nat) (fetch : α → Except E (List F))
    (fuel : Nat) (cs : List Nat) (p : List (Except E α)) (q : List (Except E (List F)))
    (ps : List (Except E α))
    (h : fill n fetch p q = FillRes.filled ps []) :
    runBufUnordered n fetch (fuel + 1) cs p q = [] := by
  simp [runBufUnordered, h]

theorem runBufUnordered_step_cons {E α F : Type} (n : Nat) (fetch : α → Except E (List F))
    (fuel : Nat) (cs : List Nat) (p : List (Except E α)) (q : List (Except E (List F)))
    (ps : List (Except E α)) (r : Except E (List F)) (rs : List (Except E (List F)))
    (h : fill n fetch p q = FillRes.filled ps (r :: rs)) :
    runBufUnordered n fetch (fuel + 1) cs p q =
      (r :: rs).getD (cs.headD 0 % (r :: rs).length) (Except.ok []) ::
        runBufUnordered n fetch fuel cs.tail ps
          ((r :: rs).eraseIdx (cs.headD 0 % (r :: rs).length)) := by
  simp [runBufUnordered, h]

theorem fill_ok {E α F : Type} (n : Nat) (fetch : α → Except E (List F)) :
    ∀ (p : List α) (q : List (Except E (List F))),
      fill n fetch (p.map Except.ok) q =
        FillRes.filled ((p.drop (min (n - q.length) p.length)).map Except.ok)
          (q ++ (p.take (min (n - q.length) p.length)).map fetch) := by
  intro p
  induction p with
  | nil => intro q; simp [fill]
  | cons a p ih =>
    intro q
    by_cases h : q.length < n
    · simp only [List.map_cons, fill, if_pos h]
      rw [ih (q ++ [fetch a])]
      have hmin : min (n - q.length) (a :: p).length =
          min (n - (q ++ [fetch a]).length) p.length + 1 := by
        simp only [List.length_append, List.length_cons, List.length_nil]
        omega
      rw [hmin]
      simp [List.append_assoc]
    · simp only [List.map_cons, fill, if_neg h]
      have hmin : min (n - q.length) (a :: p).length = 0 := by
        have : n - q.length = 0 := by omega
        simp [this]
      rw [hmin]
      simp

theorem runBuffered_ok {E α F : Type} (n : Nat) (fetch : α → Except E (List F))
    (hn : 1 ≤ n) :
    ∀ (fuel : Nat) (p : List α) (q : List (Except E (List F))),
      p.length + q.length ≤ fuel →
      runBuffered n fetch fuel (p.map Except.ok) q = q ++ p.map fetch := by
  intro fuel
  induction fuel with
  | zero =>
    intro p q hle
    have hp : p = [] := List.length_eq_zero.mp (by omega)
    have hq : q = [] := List.length_eq_zero.mp (by omega)
    subst hp
    subst hq
    rfl
  | succ fuel ih =>
    intro p q hle
    cases hw : q ++ (p.take (min (n - q.length) p.length)).map fetch with
    | nil =>
      have hfill : fill n fetch (p.map Except.ok) q =
          FillRes.filled ((p.drop (min (n - q.length) p.length)).map Except.ok) [] := by
        rw [fill_ok n fetch p q, hw]
      obtain ⟨hq, hmap⟩ := List.append_eq_nil.mp hw
      have htake := List.map_eq_nil_iff.mp hmap
      have hp : p = [] := by
        cases p with
        | nil => rfl
        | cons a p' =>
          exfalso
          subst hq
          rw [List.take_eq_nil_iff] at htake
          rcases htake with h0 | h0
          · simp at h0
            omega
          · simp at h0
      rw [runBuffered_step_nil n fetch fuel _ _ _ hfill, hp, hq]
      rfl
    | cons r rs =>
      have hfill : fill n fetch (p.map Except.ok) q =
          FillRes.filled ((p.drop (min (n - q.length) p.length)).map Except.ok) (r :: rs) := by
        rw [fill_ok n fetch p q, hw]
      rw [runBuffered_step_cons n fetch fuel _ _ _ _ _ hfill]
      have hlentake : (p.take (min (n - q.length) p.length)).length =
          min (n - q.length) p.length := by
        rw [List.length_take]
        omega
      have hlenw := congrArg List.length hw
      simp only [List.length_append, List.length_map, List.length_cons, hlentake] at hlenw
      have hrec := ih (p.drop (min (n - q.length) p.length)) rs (by
        rw [List.length_drop]
        omega)
      rw [hrec]
      have hsplit : (p.take (min (n - q.length) p.length)).map fetch ++
          (p.drop (min (n - q.length) p.length)).map fetch = p.map fetch := by
        rw [← List.map_append, List.take_append_drop]
      calc r :: (rs ++ (p.drop (min (n - q.length) p.length)).map fetch)
          = (r :: rs) ++ (p.drop (min (n - q.length) p.length)).map fetch := rfl
        _ = (q ++ (p.take (min (n - q.length) p.length)).map fetch) ++
              (p.drop (min (n - q.length) p.length)).map fetch := by rw [hw]
        _ = q ++ p.map fetch := by rw [List.append_assoc, hsplit]

theorem flattenResults_map_ok {E α F : Type} (frames : α → List F) :
    ∀ ds : List α,
      flattenResults (E := E) (ds.map (fun d => Except.ok (frames d))) =
        ((ds.map frames).flatten).map Except.ok := by
  intro ds
  induction ds with
  | nil => rfl
  | cons d ds ih =>
    simp only [List.map_cons, flattenResults, List.flatMap_cons, List.flatten_cons,
      List.map_append]
    rw [show expandResult (Except.ok (ε := E) (frames d)) = (frames d).map Except.ok from rfl]
    rw [show (ds.map (fun d => Except.ok (frames d))).flatMap expandResult =
      flattenResults (E := E) (ds.map (fun d => Except.ok (frames d))) from rfl, ih]

/-- C2: with every fetch succeeding, source produces exactly the
concatenation of the per-descriptor frame sequences in input order, frames
within each descriptor in internal order (the 2-deep fetch window of the
ordered mode does not reorder anything). -/
theorem claim_c2 (E α F : Type) (frames : α → List F) (ds : List α) :
    sourceModel (E := E) (fun d => Except.ok (frames d)) (ds.map Except.ok) =
      ((ds.map frames).flatten).map Except.ok := by
  unfold sourceModel
  rw [List.length_map]
  rw [runBuffered_ok 2 (fun d => Except.ok (frames d)) (by omega) ds.length ds [] (by simp)]
  rw [List.nil_append]
  exact flattenResults_map_ok frames ds

/-- C3 counterexample: with descriptors [error 7, ok 3] (the input sequence
yields an error) and every fetch succeeding with one frame, both source and
source_unordered emit the error and then still yield descriptor 3's frame —
the combined sequence does not end at the error. -/
theorem claim_c3_counterexample :
    sourceModel (E := Nat) (α := Nat) (F := Nat) (fun d => Except.ok [d * 10])
        [Except.error 7, Except.ok 3] = [Except.error 7, Except.ok 30] ∧
    sourceUnorderedModel (E := Nat) (α := Nat) (F := Nat) 2 (fun d => Except.ok [d * 10])
        [] [Except.error 7, Except.ok 3] = [Except.error 7, Except.ok 30] := by
  exact ⟨rfl, rfl⟩

theorem fill_spec {E α F : Type} (n : Nat) (fetch : α → Except E (List F)) :
    ∀ (p : List (Except E α)) (q : List (Except E (List F))),
      (∃ (e : E) (pre : List α) (p' : List (Except E α)),
        fill n fetch p q = FillRes.errored e p' (q ++ pre.map fetch) ∧
        p = pre.map Except.ok ++ Except.error e :: p' ∧
        (q ++ pre.map fetch).length < n) ∨
      (∃ (pre : List α) (p' : List (Except E α)),
        fill n fetch p q = FillRes.filled p' (q ++ pre.map fetch) ∧
        p = pre.map Except.ok ++ p' ∧
        (p' = [] ∨ n ≤ (q ++ pre.map fetch).length)) := by
  intro p
  induction p with
  | nil =>
    intro q
    right
    exact ⟨[], [], by simp [fill], by simp, Or.inl rfl⟩
  | cons x p ih =>
    intro q
    cases x with
    | error e =>
      by_cases h : q.length < n
      · left
        exact ⟨e, [], p, by simp [fill, h], by simp, by simpa using h⟩
      · right
        exact ⟨[], Except.error e :: p, by simp [fill, h], by simp,
          Or.inr (by simp; omega)⟩
    | ok a =>
      by_cases h : q.length < n
      · rcases ih (q ++ [fetch a]) with
          ⟨e, pre, p', heq, hdecomp, hlen⟩ | ⟨pre, p', heq, hdecomp, hlast⟩
        · left
          refine ⟨e, a :: pre, p', ?_, ?_, ?_⟩
          · simp only [fill, if_pos h]
            rw [heq]
            simp [List.append_assoc]
          · simp [hdecomp]
          · simp only [List.length_append, List.length_map, List.length_cons,
              List.length_nil] at hlen ⊢
            omega
        · right
          refine ⟨a :: pre, p', ?_, ?_, ?_⟩
          · simp only [fill, if_pos h]
            rw [heq]
            simp [List.append_assoc]
          · simp [hdecomp]
          · rcases hlast with h0 | h0
            · exact Or.inl h0
            · right
              simp only [List.length_append, List.length_map, List.length_cons,
                List.length_nil] at h0 ⊢
              omega
      · right
        exact ⟨[], Except.ok a :: p, by simp [fill, h], by simp,
          Or.inr (by simp; omega)⟩

theorem map_resultOf_ok {E α F : Type} (fetch : α → Except E (List F)) :
    ∀ pre : List α, (pre.map Except.ok).map (resultOf fetch) = pre.map fetch := by
  intro pre
  induction pre with
  | nil => rfl
  | cons a pre ih => simp [resultOf, ih]

theorem runBuffered_perm {E α F : Type} (n : Nat) (fetch : α → Except E (List F))
    (hn : 1 ≤ n) :
    ∀ (fuel : Nat) (p : List (Except E α)) (q : List (Except E (List F))),
      p.length + q.length ≤ fuel →
      List.Perm (runBuffered n fetch fuel p q) (q ++ p.map (resultOf fetch)) := by
  intro fuel
  induction fuel with
  | zero =>
    intro p q hle
    have hp : p = [] := List.length_eq_zero.mp (by omega)
    have hq : q = [] := List.length_eq_zero.mp (by omega)
    subst hp
    subst hq
    exact List.Perm.refl _
  | succ fuel ih =>
    intro p q hle
    rcases fill_spec n fetch p q with
      ⟨e, pre, p', heq, hdecomp, _⟩ | ⟨pre, p', heq, hdecomp, hlast⟩
    · rw [runBuffered_step_err n fetch fuel _ _ _ _ _ heq]
      have hplen := congrArg List.length hdecomp
      simp only [List.length_append, List.length_map, List.length_cons] at hplen
      have hperm := ih p' (q ++ pre.map fetch) (by
        simp only [List.length_append, List.length_map]
        omega)
      have hmap : p.map (resultOf fetch) =
          pre.map fetch ++ Except.error e :: p'.map (resultOf fetch) := by
        rw [hdecomp, List.map_append, map_resultOf_ok, List.map_cons]
        rfl
      rw [hmap]
      have h1 := hperm.cons (Except.error (α := List F) e)
      have h2 : List.Perm
          (Except.error e :: ((q ++ pre.map fetch) ++ p'.map (resultOf fetch)))
          ((q ++ pre.map fetch) ++ Except.error e :: p'.map (resultOf fetch)) :=
        List.perm_middle.symm
      have h3 : (q ++ pre.map fetch) ++ Except.error e :: p'.map (resultOf fetch) =
          q ++ (pre.map fetch ++ Except.error e :: p'.map (resultOf fetch)) :=
        List.append_assoc _ _ _
      rw [← h3]
      exact h1.trans h2
    · cases hw : q ++ pre.map fetch with
      | nil =>
        rw [hw] at heq
        obtain ⟨hq, hmapnil⟩ := List.append_eq_nil.mp hw
        have hpre : pre = [] := List.map_eq_nil_iff.mp hmapnil
        have hp' : p' = [] := by
          rcases hlast with h0 | h0
          · exact h0
          · rw [hw] at h0
            simp at h0
            omega
        rw [runBuffered_step_nil n fetch fuel _ _ _ heq]
        rw [hdecomp, hpre, hp', hq]
        exact List.Perm.refl _
      | cons r rs =>
        rw [hw] at heq
        rw [runBuffered_step_cons n fetch fuel _ _ _ _ _ heq]
        have hplen := congrArg List.length hdecomp
        simp only [List.length_append, List.length_map] at hplen
        have hwlen := congrArg List.length hw
        simp only [List.length_append, List.length_map, List.length_cons] at hwlen
        have hperm := (ih p' rs (by omega)).cons r
        have hmap : p.map (resultOf fetch) = pre.map fetch ++ p'.map (resultOf fetch) := by
          rw [hdecomp, List.map_append, map_resultOf_ok]
        rw [hmap]
        have h2 : r :: (rs ++ p'.map (resultOf fetch)) =
            (q ++ pre.map fetch) ++ p'.map (resultOf fetch) := by
          rw [hw]
          rfl
        rw [h2] at hperm
        rw [← List.append_assoc]
        exact hperm

theorem perm_getD_eraseIdx {γ : Type} (d : γ) :
    ∀ (l : List γ) (i : Nat), i < l.length →
      List.Perm (l.getD i d :: l.eraseIdx i) l := by
  intro l
  induction l with
  | nil => intro i h; simp at h
  | cons x xs ih =>
    intro i h
    cases i with
    | zero => exact List.Perm.refl _
    | succ i =>
      have hi : i < xs.length := by simpa using h
      have hrec := ih i hi
      have hswap : List.Perm (xs.getD i d :: x :: xs.eraseIdx i)
          (x :: xs.getD i d :: xs.eraseIdx i) := List.Perm.swap _ _ _
      exact hswap.trans (hrec.cons x)

theorem runBufUnordered_perm {E α F : Type} (n : Nat) (fetch : α → Except E (List F))
    (hn : 1 ≤ n) :
    ∀ (fuel : Nat) (cs : List Nat) (p : List (Except E α)) (q : List (Except E (List F))),
      p.length + q.length ≤ fuel →
      List.Perm (runBufUnordered n fetch fuel cs p q) (q ++ p.map (resultOf fetch)) := by
  intro fuel
  induction fuel with
  | zero =>
    intro cs p q hle
    have hp : p = [] := List.length_eq_zero.mp (by omega)
    have hq : q = [] := List.length_eq_zero.mp (by omega)
    subst hp
    subst hq
    exact List.Perm.refl _
  | succ fuel ih =>
    intro cs p q hle
    rcases fill_spec n fetch p q with
      ⟨e, pre, p', heq, hdecomp, _⟩ | ⟨pre, p', heq, hdecomp, hlast⟩
    · rw [runBufUnordered_step_err n fetch fuel cs _ _ _ _ _ heq]
      have hplen := congrArg List.length hdecomp
      simp only [List.length_append, List.length_map, List.length_cons] at hplen
      have hperm := ih cs p' (q ++ pre.map fetch) (by
        simp only [List.length_append, List.length_map]
        omega)
      have hmap : p.map (resultOf fetch) =
          pre.map fetch ++ Except.error e :: p'.map (resultOf fetch) := by
        rw [hdecomp, List.map_append, map_resultOf_ok, List.map_cons]
        rfl
      rw [hmap]
      have h1 := hperm.cons (Except.error (α := List F) e)
      have h2 : List.Perm
          (Except.error e :: ((q ++ pre.map fetch) ++ p'.map (resultOf fetch)))
          ((q ++ pre.map fetch) ++ Except.error e :: p'.map (resultOf fetch)) :=
        List.perm_middle.symm
      have h3 : (q ++ pre.map fetch) ++ Except.error e :: p'.map (resultOf fetch) =
          q ++ (pre.map fetch ++ Except.error e :: p'.map (resultOf fetch)) :=
        List.append_assoc _ _ _
      rw [← h3]
      exact h1.trans h2
    · cases hw : q ++ pre.map fetch with
      | nil =>
        rw [hw] at heq
        obtain ⟨hq, hmapnil⟩ := List.append_eq_nil.mp hw
        have hpre : pre = [] := List.map_eq_nil_iff.mp hmapnil
        have hp' : p' = [] := by
          rcases hlast with h0 | h0
          · exact h0
          · rw [hw] at h0
            simp at h0
            omega
        rw [runBufUnordered_step_nil n fetch fuel cs _ _ _ heq]
        rw [hdecomp, hpre, hp', hq]
        exact List.Perm.refl _
      | cons r rs =>
        rw [hw] at heq
        rw [runBufUnordered_step_cons n fetch fuel cs _ _ _ _ _ heq]
        have hplen := congrArg List.length hdecomp
        simp only [List.length_append, List.length_map] at hplen
        have hwlen := congrArg List.length hw
        simp only [List.length_append, List.length_map, List.length_cons] at hwlen
        have hi : cs.headD 0 % (r :: rs).length < (r :: rs).length :=
          Nat.mod_lt _ (by simp)
        have hlenerase : ((r :: rs).eraseIdx (cs.headD 0 % (r :: rs).length)).length =
            rs.length := by
          rw [List.length_eraseIdx, if_pos hi]
          simp
        have hperm := (ih cs.tail p'
          ((r :: rs).eraseIdx (cs.headD 0 % (r :: rs).length)) (by
            rw [hlenerase]
            omega)).cons
          ((r :: rs).getD (cs.headD 0 % (r :: rs).length) (Except.ok []))
        have hfront := perm_getD_eraseIdx (Except.ok (α := List F) [])
          (r :: rs) (cs.headD 0 % (r :: rs).length) hi
        have hmap : p.map (resultOf fetch) = pre.map fetch ++ p'.map (resultOf fetch) := by
          rw [hdecomp, List.map_append, map_resultOf_ok]
        rw [hmap]
        refine hperm.trans ?_
        have hfrontapp := hfront.append_right (p'.map (resultOf fetch))
        have heqapp : (r :: rs) ++ p'.map (resultOf fetch) =
            q ++ (pre.map fetch ++ p'.map (resultOf fetch)) := by
          rw [← hw, List.append_assoc]
        rw [← heqapp]
        exact hfrontapp

/-- C3 amended: a fetch failure (or an input error) is emitted into the
combined sequence in place of that descriptor's frames, but the sequence does
not terminate there — the combined sequence is exactly the flattening of a
permutation of the per-input outcomes, so every input still contributes its
own outcome (its frames, contiguous and in internal order, or its error)
exactly once, for source and for source_unordered with any worker count; a
consumer stopping at the first error observes fail-fast behaviour. -/
theorem claim_c3_amended (E α F : Type) (fetch : α → Except E (List F))
    (infos : List (Except E α)) :
    (∃ rs : List (Except E (List F)),
      List.Perm rs (infos.map (resultOf fetch)) ∧
      sourceModel fetch infos = flattenResults rs) ∧
    (∀ (workers : Nat) (cs : List Nat), 1 ≤ workers →
      ∃ rs : List (Except E (List F)),
        List.Perm rs (infos.map (resultOf fetch)) ∧
        sourceUnorderedModel workers fetch cs infos = flattenResults rs) := by
  constructor
  · refine ⟨runBuffered 2 fetch infos.length infos [], ?_, rfl⟩
    simpa using runBuffered_perm 2 fetch (by omega) infos.length infos [] (by simp)
  · intro workers cs hW
    refine ⟨runBufUnordered workers fetch infos.length cs infos [], ?_, rfl⟩
    simpa using runBufUnordered_perm workers fetch hW infos.length cs infos [] (by simp)

theorem claim_c3_amended_witness :
    1 ≤ 1 ∧
    (∃ rs : List (Except Nat (List Nat)),
      List.Perm rs
        (([Except.error 7, Except.ok 3].map
          (resultOf (fun d : Nat => Except.ok (ε := Nat) [d * 10])))) ∧
      sourceModel (E := Nat) (α := Nat) (F := Nat) (fun d => Except.ok [d * 10])
        [Except.error 7, Except.ok 3] = flattenResults rs) ∧
    (∃ rs : List (Except Nat (List Nat)),
      List.Perm rs
        (([Except.error 7, Except.ok 3].map
          (resultOf (fun d : Nat => Except.ok (ε := Nat) [d * 10])))) ∧
      sourceUnorderedModel (E := Nat) (α := Nat) (F := Nat) 1
        (fun d => Except.ok [d * 10]) [] [Except.error 7, Except.ok 3] =
        flattenResults rs) :=
  ⟨by decide,
    (claim_c3_amended Nat Nat Nat (fun d => Except.ok [d * 10])
      [Except.error 7, Except.ok 3]).1,
    (claim_c3_amended Nat Nat Nat (fun d => Except.ok [d * 10])
      [Except.error 7, Except.ok 3]).2 1 [] (by decide)⟩

/-! ## Unordered mode with one worker, and C7 -/

theorem fill_window_le {E α F : Type} (n : Nat) (fetch : α → Except E (List F)) :
    ∀ (p : List (Except E α)) (q : List (Except E (List F))),
      (fillWindow (fill n fetch p q)).length ≤ max q.length n := by
  intro p
  induction p with
  | nil =>
    intro q
    simp [fill, fillWindow]
  | cons x p ih =>
    intro q
    cases x with
    | error e =>
      by_cases h : q.length < n <;> simp [fill, h, fillWindow]
    | ok a =>
      by_cases h : q.length < n
      · simp only [fill, if_pos h]
        have := ih (q ++ [fetch a])
        simp only [List.length_append, List.length_cons, List.length_nil] at this
        omega
      · simp [fill, h, fillWindow]

theorem runBufUnordered_one {E α F : Type} (fetch : α → Except E (List F)) :
    ∀ (fuel : Nat) (cs : List Nat) (p : List (Except E α)) (q : List (Except E (List F))),
      q.length ≤ 1 →
      runBufUnordered 1 fetch fuel cs p q = runBuffered 1 fetch fuel p q := by
  intro fuel
  induction fuel with
  | zero => intro cs p q _; rfl
  | succ fuel ih =>
    intro cs p q hq
    have hwle := fill_window_le 1 fetch p q
    rcases fill_spec 1 fetch p q with
      ⟨e, pre, p', heq, _, hlen⟩ | ⟨pre, p', heq, _, _⟩
    · rw [runBufUnordered_step_err 1 fetch fuel cs _ _ _ _ _ heq]
      rw [runBuffered_step_err 1 fetch fuel _ _ _ _ _ heq]
      rw [ih cs p' (q ++ pre.map fetch) (by omega)]
    · cases hw : q ++ pre.map fetch with
      | nil =>
        rw [hw] at heq
        rw [runBufUnordered_step_nil 1 fetch fuel cs _ _ _ heq]
        rw [runBuffered_step_nil 1 fetch fuel _ _ _ heq]
      | cons r rs =>
        have hwlen : (q ++ pre.map fetch).length ≤ 1 := by
          rw [heq] at hwle
          simp only [fillWindow] at hwle
          omega
        have hrs : rs = [] := by
          rw [hw] at hwlen
          simp only [List.length_cons] at hwlen
          exact List.length_eq_zero.mp (by omega)
        subst hrs
        rw [hw] at heq
        rw [runBufUnordered_step_cons 1 fetch fuel cs _ _ _ _ _ heq]
        rw [runBuffered_step_cons 1 fetch fuel _ _ _ _ _ heq]
        simp only [List.length_singleton, Nat.mod_one, List.getD_cons_zero,
          List.eraseIdx_cons_zero]
        rw [ih cs.tail p' [] (by simp)]

theorem flattenResults_all_ok {E F : Type} :
    ∀ L : List (Except E (List F)), (∀ x ∈ L, ∃ fs, x = Except.ok fs) →
      flattenResults L = ((L.map okFrames).flatten).map Except.ok := by
  intro L
  induction L with
  | nil => intro _; rfl
  | cons x L ih =>
    intro h
    obtain ⟨fs, rfl⟩ := h x (List.mem_cons_self x L)
    have hrest := ih (fun y hy => h y (List.mem_cons_of_mem _ hy))
    simp only [flattenResults, List.flatMap_cons, List.map_cons, List.flatten_cons,
      List.map_append] at hrest ⊢
    rw [show expandResult (Except.ok (ε := E) fs) = fs.map Except.ok from rfl,
      show okFrames (Except.ok (ε := E) fs) = fs from rfl, hrest]

/-- C7: with every fetch succeeding, source_unordered with any worker count
W of at least 1 (and any completion schedule) yields the frames of some
permutation of the descriptors, each descriptor's frames contiguous and in
internal order — the same multiset of frames as sequential fetches; and with
W = 1 its output equals that of source on the same descriptors. -/
theorem claim_c7 (E α F : Type) (frames : α → List F) (ds : List α) (W : Nat)
    (cs : List Nat) (hW : 1 ≤ W) :
    (∃ bs : List (List F), List.Perm bs (ds.map frames) ∧
      sourceUnorderedModel (E := E) W (fun d => Except.ok (frames d)) cs
        (ds.map Except.ok) = bs.flatten.map Except.ok) ∧
    sourceUnorderedModel (E := E) 1 (fun d => Except.ok (frames d)) cs
        (ds.map Except.ok) =
      sourceModel (E := E) (fun d => Except.ok (frames d)) (ds.map Except.ok) := by
  constructor
  · have hperm : List.Perm
        (runBufUnordered W (fun d => Except.ok (ε := E) (frames d))
          (ds.map (Except.ok (ε := E))).length cs (ds.map (Except.ok (ε := E))) [])
        ((ds.map (Except.ok (ε := E))).map
          (resultOf (fun d => Except.ok (ε := E) (frames d)))) := by
      simpa using runBufUnordered_perm W (fun d => Except.ok (ε := E) (frames d)) hW
        (ds.map (Except.ok (ε := E))).length cs (ds.map (Except.ok (ε := E))) [] (by simp)
    rw [map_resultOf_ok] at hperm
    have hallok : ∀ x ∈ runBufUnordered W (fun d => Except.ok (ε := E) (frames d))
        (ds.map (Except.ok (ε := E))).length cs (ds.map (Except.ok (ε := E))) [],
        ∃ fs, x = Except.ok fs := by
      intro x hx
      have hx2 : x ∈ ds.map (fun d => Except.ok (ε := E) (frames d)) :=
        hperm.mem_iff.mp hx
      obtain ⟨d, _, hxd⟩ := List.mem_map.mp hx2
      exact ⟨frames d, hxd.symm⟩
    refine ⟨(runBufUnordered W (fun d => Except.ok (ε := E) (frames d))
      (ds.map (Except.ok (ε := E))).length cs (ds.map (Except.ok (ε := E))) []).map
        okFrames, ?_, ?_⟩
    · have hmapped := hperm.map (okFrames (E := E) (F := F))
      have hok : (ds.map (fun d => Except.ok (ε := E) (frames d))).map okFrames =
          ds.map frames := by
        rw [List.map_map]
        rfl
      rw [hok] at hmapped
      exact hmapped
    · unfold sourceUnorderedModel
      exact flattenResults_all_ok _ hallok
  · unfold sourceUnorderedModel sourceModel
    rw [runBufUnordered_one (fun d => Except.ok (frames d)) (ds.map Except.ok).length cs
      (ds.map Except.ok) [] (by simp)]
    rw [List.length_map]
    rw [runBuffered_ok 1 (fun d => Except.ok (frames d)) (by omega) ds.length ds []
      (by simp)]
    rw [runBuffered_ok 2 (fun d => Except.ok (frames d)) (by omega) ds.length ds []
      (by simp)]

theorem claim_c7_witness :
    1 ≤ 2 ∧
    ((∃ bs : List (List Nat), List.Perm bs ([3, 5].map (fun d => [d, d + 1])) ∧
        sourceUnorderedModel (E := Nat) 2 (fun d => Except.ok [d, d + 1]) [1]
          ([3, 5].map Except.ok) = bs.flatten.map Except.ok) ∧
      sourceUnorderedModel (E := Nat) 1 (fun d => Except.ok [d, d + 1]) [1]
          ([3, 5].map Except.ok) =
        sourceModel (E := Nat) (fun d => Except.ok [d, d + 1]) ([3, 5].map Except.ok)) :=
  ⟨by decide, claim_c7 Nat Nat Nat (fun d => [d, d + 1]) [3, 5] 2 [1] (by decide)⟩

/-! ## Codec pipeline lemmas and C5 -/

theorem be32enc_length (m : Nat) : (be32enc m).length = 4 := by
  simp [be32enc]

theorem be32_roundtrip (m : Nat) (hm : m < 4294967296) : be32val (be32enc m) = m := by
  simp only [be32enc, be32val, List.foldl]
  omega

theorem encodeFrame_length (f : List Nat) : (encodeFrame f).length = 4 + f.length := by
  simp [encodeFrame, be32enc]
  omega

theorem decodeFramesFuel_step (fuel : Nat) (bytes : List Nat) (hne : bytes ≠ []) :
    decodeFramesFuel (fuel + 1) bytes =
      if bytes.length < 4 then [Except.error CodecErr.truncated]
      else if maxFrameLen < be32val (bytes.take 4) then
        [Except.error CodecErr.oversized]
      else if bytes.length < 4 + be32val (bytes.take 4) then
        [Except.error CodecErr.truncated]
      else Except.ok ((bytes.drop 4).take (be32val (bytes.take 4))) ::
        decodeFramesFuel fuel (bytes.drop (4 + be32val (bytes.take 4))) := by
  cases bytes with
  | nil => exact absurd rfl hne
  | cons b bs => rfl

theorem decodeFramesFuel_trunc :
    ∀ (front : List (List Nat)) (fuel : Nat) (f : List Nat) (j : Nat),
      (∀ g ∈ front, g.length ≤ maxFrameLen) → f.length ≤ maxFrameLen →
      0 < j → j < 4 + f.length →
      (encodeFrames front ++ (encodeFrame f).take j).length ≤ fuel →
      decodeFramesFuel fuel (encodeFrames front ++ (encodeFrame f).take j) =
        front.map Except.ok ++ [Except.error CodecErr.truncated] := by
  intro front
  induction front with
  | nil =>
    intro fuel f j _ hf hj0 hjlt hfuel
    have hnil : encodeFrames ([] : List (List Nat)) = [] := rfl
    rw [hnil, List.nil_append] at hfuel ⊢
    have hflen : (encodeFrame f).length = 4 + f.length := encodeFrame_length f
    have hlenb : ((encodeFrame f).take j).length = j := by
      rw [List.length_take]
      omega
    cases fuel with
    | zero => omega
    | succ fuel' =>
      have hne : (encodeFrame f).take j ≠ [] := by
        intro h
        rw [h] at hlenb
        simp at hlenb
        omega
      rw [decodeFramesFuel_step fuel' _ hne]
      by_cases h4 : j < 4
      · rw [if_pos (by rw [hlenb]; omega)]
        rfl
      · have htake4 : ((encodeFrame f).take j).take 4 = be32enc f.length := by
          rw [List.take_take]
          have hmin : min 4 j = 4 := by omega
          rw [hmin]
          exact List.take_left' (be32enc_length f.length)
        have hbound : f.length < 4294967296 := by
          have : maxFrameLen = 8388608 := rfl
          omega
        have hn : be32val (((encodeFrame f).take j).take 4) = f.length := by
          rw [htake4, be32_roundtrip f.length hbound]
        rw [if_neg (by rw [hlenb]; omega)]
        rw [hn]
        rw [if_neg (by omega)]
        rw [if_pos (by rw [hlenb]; omega)]
        rfl
  | cons g front' ih =>
    intro fuel f j hfront hf hj0 hjlt hfuel
    have hg : g.length ≤ maxFrameLen := hfront g (List.mem_cons_self g front')
    have hbytes : encodeFrames (g :: front') ++ (encodeFrame f).take j =
        be32enc g.length ++
          (g ++ (encodeFrames front' ++ (encodeFrame f).take j)) := by
      simp [encodeFrames, encodeFrame, List.flatMap_cons, List.append_assoc]
    rw [hbytes] at hfuel ⊢
    have hrestlen : (encodeFrames front' ++ (encodeFrame f).take j).length =
        (encodeFrames front').length + min j (4 + f.length) := by
      rw [List.length_append, List.length_take, encodeFrame_length]
    have hBlen : (be32enc g.length ++
        (g ++ (encodeFrames front' ++ (encodeFrame f).take j))).length =
        4 + g.length + (encodeFrames front' ++ (encodeFrame f).take j).length := by
      simp only [List.length_append, be32enc_length]
      omega
    cases fuel with
    | zero => omega
    | succ fuel' =>
      have hne : be32enc g.length ++
          (g ++ (encodeFrames front' ++ (encodeFrame f).take j)) ≠ [] := by
        intro h
        have := congrArg List.length h
        rw [hBlen] at this
        simp at this
      rw [decodeFramesFuel_step fuel' _ hne]
      have htake4 : (be32enc g.length ++
          (g ++ (encodeFrames front' ++ (encodeFrame f).take j))).take 4 =
          be32enc g.length := List.take_left' (be32enc_length g.length)
      have hgbound : g.length < 4294967296 := by
        have : maxFrameLen = 8388608 := rfl
        omega
      have hn : be32val ((be32enc g.length ++
          (g ++ (encodeFrames front' ++ (encodeFrame f).take j))).take 4) = g.length := by
        rw [htake4, be32_roundtrip g.length hgbound]
      rw [if_neg (by rw [hBlen]; omega), hn, if_neg (by omega),
        if_neg (by rw [hBlen]; omega)]
      have hdrop4 : (be32enc g.length ++
          (g ++ (encodeFrames front' ++ (encodeFrame f).take j))).drop 4 =
          g ++ (encodeFrames front' ++ (encodeFrame f).take j) :=
        List.drop_left' (be32enc_length g.length)
      have hframe : ((be32enc g.length ++
          (g ++ (encodeFrames front' ++ (encodeFrame f).take j))).drop 4).take g.length =
          g := by
        rw [hdrop4, List.take_left]
      have hdropall : (be32enc g.length ++
          (g ++ (encodeFrames front' ++ (encodeFrame f).take j))).drop (4 + g.length) =
          encodeFrames front' ++ (encodeFrame f).take j := by
        rw [show be32enc g.length ++
            (g ++ (encodeFrames front' ++ (encodeFrame f).take j)) =
            (be32enc g.length ++ g) ++
              (encodeFrames front' ++ (encodeFrame f).take j) from by
          rw [List.append_assoc]]
        refine List.drop_left' ?_
        rw [List.length_append, be32enc_length]
      rw [hframe, hdropall]
      rw [ih fuel' f j (fun x hx => hfront x (List.mem_cons_of_mem g hx)) hf hj0 hjlt
        (by rw [hBlen] at hfuel; omega)]
      rfl

/-- C5: for every object body that is a frame encoding truncated strictly
inside one frame (within its length field or its payload), the codec pipeline
yields exactly the frames fully received before the truncation point, in
order, followed by one terminal CodecError; no partial frame is yielded. -/
theorem claim_c5 (front : List (List Nat)) (f : List Nat) (j : Nat)
    (hfront : ∀ g ∈ front, g.length ≤ maxFrameLen) (hf : f.length ≤ maxFrameLen)
    (hj0 : 0 < j) (hjlt : j < 4 + f.length) :
    decodeFrames (encodeFrames front ++ (encodeFrame f).take j) =
      front.map Except.ok ++ [Except.error CodecErr.truncated] := by
  unfold decodeFrames
  exact decodeFramesFuel_trunc front _ f j hfront hf hj0 hjlt (Nat.le_refl _)

theorem claim_c5_witness :
    (∀ g ∈ [[1, 2]], List.length g ≤ maxFrameLen) ∧ ([3, 4, 5] : List Nat).length ≤ maxFrameLen ∧
    0 < 5 ∧ 5 < 4 + ([3, 4, 5] : List Nat).length ∧
    decodeFrames (encodeFrames [[1, 2]] ++ (encodeFrame [3, 4, 5]).take 5) =
      [[1, 2]].map Except.ok ++ [Except.error CodecErr.truncated] :=
  ⟨by decide, by decide, by decide, by decide,
    claim_c5 [[1, 2]] [3, 4, 5] 5 (by decide) (by decide) (by decide) (by decide)⟩
